import Mathlib

/-!
Verification development for the map generator `map_gen.py` of
mimvdb/gym-duckietown.

The generator builds a closed-loop road track on a `width × height` grid:
it picks a simple cycle of grid cells, converts it into per-cell
connectivity records, classifies each record into a tile-asset name, and
scatters "duckie" objects on the cycle's cells with a minimum-separation
rejection sampler.

Modelling conventions:
* Python `int` becomes `ℤ` (grid coordinates) or `ℕ` (loop counters);
  Python `float` becomes `ℚ` (the program only multiplies, adds, squares
  and compares, so exact rational arithmetic mirrors the algebra of the
  source; no rounding behaviour is claimed).
* The module-level generator `rand = Random()` is modelled as an explicit
  state `RNG` holding the stream of pending draws: `randrange`/`choice`
  consume one integer draw, `random()` consumes one rational draw.  The
  program parses `--seed` but never seeds `rand`, so the model's state is
  an arbitrary parameter of a run, not a function of the seed.
* Fallible operations (Python `random.choice` on an empty sequence raises
  `IndexError`) return `Option`.
* List indexing is modelled with `List.getD`; all indices exercised by the
  theorems below are in bounds, where `getD` agrees with Python indexing
  (Python's negative-index wrapping is never reached there).
-/

namespace MapGen

/-- State of the module-level `rand = Random()` generator, modelled as the
streams of pending draws: `nats` feeds `randrange`/`choice` (the raw value
is reduced modulo the requested range), `rats` feeds `random()`.
Exhausted streams yield `0`. -/
structure RNG where
  nats : List Nat
  rats : List ℚ
deriving DecidableEq

/-- Consume one integer draw. -/
def nextNat (s : RNG) : Nat × RNG := (s.nats.headD 0, ⟨s.nats.tail, s.rats⟩)

/-- Consume one `random()` draw. -/
def nextRat (s : RNG) : ℚ × RNG := (s.rats.headD 0, ⟨s.nats, s.rats.tail⟩)

/-- `rand.randrange(n)` / `rand.randrange(0, n)`: a draw reduced into
`[0, n)`. -/
def randrange (n : Nat) (s : RNG) : Nat × RNG :=
  let (v, s1) := nextNat s
  (v % n, s1)

/-- `rand.choice(l)`: uniform element of `l`; raises (`none`) on an empty
sequence, exactly as Python's `random.choice`. -/
def choice {α : Type} (l : List α) (s : RNG) : Option (α × RNG) :=
  match l with
  | [] => none
  | a :: t =>
    let (v, s1) := nextNat s
    some ((a :: t).getD (v % (a :: t).length) a, s1)

/-- `TILE_SIZE = 0.585` (world units per tile). -/
def TILE_SIZE : ℚ := 0.585

/-- A grid cell `(x, y)`, Python integer pair. -/
abbrev Cell := ℤ × ℤ

/-- The four 4-adjacency offsets (E, W, S, N), the directions of
`neighs(x, y) = [(x+1,y), (x-1,y), (x,y+1), (x,y-1)]`. -/
def offs : List Cell := [(1, 0), (-1, 0), (0, 1), (0, -1)]

/-- `q` is a 4-neighbour of `p`. -/
def Adj (p q : Cell) : Prop := ((q.1 - p.1, q.2 - p.2) : Cell) ∈ offs

instance (p q : Cell) : Decidable (Adj p q) := by unfold Adj; infer_instance

/-- The cell `(x, y)` built from natural grid indices. -/
def mkCell (y x : Nat) : Cell := ((x : ℤ), (y : ℤ))

/-- The nodes of `nx.grid_2d_graph(width, height)`: all cells `(x, y)` with
`0 ≤ x < width`, `0 ≤ y < height`. -/
def gridCells (w h : Nat) : List Cell :=
  (List.range h).flatMap (fun y => (List.range w).map (mkCell y))

/-- Decides whether `c` is an elementary directed circuit of the bidirected
grid graph: non-empty, no repeated node, and every consecutive pair
(cyclically, including last→first) joined by an edge, i.e. 4-adjacent. -/
def isCycleB (c : List Cell) : Bool :=
  !c.isEmpty && decide c.Nodup &&
    (List.range c.length).all (fun i =>
      decide (Adj (c.getD i (0, 0)) (c.getD ((i + 1) % c.length) (0, 0))))

/-- All ways to insert `a` somewhere into a list. -/
def insertAll {α : Type} (a : α) : List α → List (List α)
  | [] => [[a]]
  | b :: t => (a :: b :: t) :: (insertAll a t).map (b :: ·)

/-- All permutations of a list (executable structural enumeration). -/
def perms {α : Type} : List α → List (List α)
  | [] => [[]]
  | a :: t => (perms t).flatMap (insertAll a)

/-- All subsequences of a list (executable structural enumeration). -/
def subls {α : Type} : List α → List (List α)
  | [] => [[]]
  | a :: t => subls t ++ (subls t).map (a :: ·)

/-- `all_loops()`: `nx.simple_cycles` over
`nx.grid_2d_graph(width, height, create_using=nx.DiGraph)`.

Modelled from the documented semantics of the external `networkx` library:
`grid_2d_graph` with a directed `create_using` yields the bidirected grid
graph (an edge in each direction between every 4-adjacent pair — confirmed
by the source's own comment that every undirected cycle appears twice),
and `simple_cycles` enumerates every elementary directed circuit,
including the 2-cycles `u → v → u`.  This model lists every rotation of
every circuit in a fixed canonical order; `networkx` lists one rotation
representative per circuit in an unspecified order.  All theorems below
depend only on membership in the list and on properties invariant under
rotation, never on the order or multiplicity of the enumeration. -/
def all_loops (w h : Nat) : List (List Cell) :=
  ((subls (gridCells w h)).flatMap perms).filter isCycleB

/-- Read cell `(x, y)` of a row-major grid (default `d` off the grid). -/
def get2 {α : Type} (d : α) (g : List (List α)) (x y : ℤ) : α :=
  (g.getD y.toNat []).getD x.toNat d

/-- Write cell `(x, y)` of a row-major grid (`cycle_map[y][x] = v`). -/
def set2 {α : Type} (g : List (List α)) (x y : ℤ) (v : α) : List (List α) :=
  g.set y.toNat ((g.getD y.toNat []).set x.toNat v)

/-- A connectivity record: the `(N, E, S, W)` edge-presence flags of one
cell. -/
abbrev Rec4 := Bool × Bool × Bool × Bool

/-- The all-false record. -/
def rec0 : Rec4 := (false, false, false, false)

/-- `empty()`: a `height × width` grid of all-false records. -/
def emptyGrid (w h : Nat) : List (List Rec4) :=
  List.replicate h (List.replicate w rec0)

/-- The record written by `edge_path_to_grid` for index `i` of `edges`:
membership of each of the four neighbours of `edges[i]` in
`neighs = [edges[i - 1], edges[(i + 1) % c_len]]`, in `(N, E, S, W)`
order. -/
def cellRec (edges : List Cell) (i : Nat) : Rec4 :=
  let n := edges.length
  let ns : List Cell := [edges.getD ((i + n - 1) % n) (0, 0), edges.getD ((i + 1) % n) (0, 0)]
  let p := edges.getD i (0, 0)
  (decide ((p.1, p.2 - 1) ∈ ns), decide ((p.1 + 1, p.2) ∈ ns),
   decide ((p.1, p.2 + 1) ∈ ns), decide ((p.1 - 1, p.2) ∈ ns))

/-- `edge_path_to_grid(edges)`: start from the empty grid and, for each
index `i`, store at cell `edges[i]` the flags toward its two list
neighbours `edges[i-1]` and `edges[(i+1) % c_len]`. -/
def edge_path_to_grid (w h : Nat) (edges : List Cell) : List (List Rec4) :=
  (List.range edges.length).foldl
    (fun g i => set2 g (edges.getD i (0, 0)).1 (edges.getD i (0, 0)).2 (cellRec edges i))
    (emptyGrid w h)

/-- The `if/elif` chain of `graph_transform` classifying one connectivity
record into a tile name; the final `else` branch stores `""` (and logs
"Unknown tile").  The `(true, true, false, true)` test appears twice, for
`"3way_left/E"` and then `"4way/E"`, exactly as in the source. -/
def classify (t : Rec4) : String :=
  if t = (false, false, false, false) then "grass"
  else if t = (false, true, false, true) then "straight/E"
  else if t = (true, false, true, false) then "straight/S"
  else if t = (true, true, false, false) then "curve_left/S"
  else if t = (false, true, true, false) then "curve_left/W"
  else if t = (false, false, true, true) then "curve_left/N"
  else if t = (true, false, false, true) then "curve_left/E"
  else if t = (true, true, true, false) then "3way_left/S"
  else if t = (false, true, true, true) then "3way_left/W"
  else if t = (true, false, true, true) then "3way_left/N"
  else if t = (true, true, false, true) then "3way_left/E"
  else if t = (true, true, false, true) then "4way/E"
  else ""

/-- `graph_transform(conn_map)`: classify every cell of the
`height × width` grid. -/
def graph_transform (w h : Nat) (conn : List (List Rec4)) : List (List String) :=
  (List.range h).map (fun (y : Nat) => (List.range w).map (fun (x : Nat) =>
    classify (get2 rec0 conn (x : ℤ) (y : ℤ))))

/-- The acceptance test of `object_placement`: candidate `(x, y)` is far
(strictly more than `min_dist_sq` in squared distance) from a previously
accepted position `o`. -/
def farB (minDistSq : ℚ) (x y : ℚ) (o : ℚ × ℚ) : Bool :=
  decide (minDistSq < (x - o.1) ^ 2 + (y - o.2) ^ 2)

/-- The inner `for _ in range(50)` retry loop of `object_placement`, for
one object: draw two offsets and a start tile; accept (append and break)
when the candidate is far from every accepted position, otherwise retry;
return the accepted list unchanged when the tries are exhausted.  `none`
models the `IndexError` of `rand.choice` on an empty tile list. -/
def tryPlace (minDistSq : ℚ) (tiles : List Cell) :
    Nat → List (ℚ × ℚ) → RNG → Option (List (ℚ × ℚ) × RNG)
  | 0, ducks, s => some (ducks, s)
  | k + 1, ducks, s =>
    let xoff := (nextRat s).1 * TILE_SIZE
    let s1 := (nextRat s).2
    let yoff := (nextRat s1).1 * TILE_SIZE
    let s2 := (nextRat s1).2
    match choice tiles s2 with
    | none => none
    | some c =>
      let x := (c.1.1 : ℚ) * TILE_SIZE + xoff
      let y := (c.1.2 : ℚ) * TILE_SIZE + yoff
      if ducks.all (farB minDistSq x y) then some (ducks ++ [(x, y)], c.2)
      else tryPlace minDistSq tiles k ducks c.2

/-- The outer `for _ in range(n)` loop of `object_placement`: one
`tryPlace` phase (50 tries) per requested object. -/
def placeLoop (minDistSq : ℚ) (tiles : List Cell) :
    Nat → List (ℚ × ℚ) → RNG → Option (List (ℚ × ℚ) × RNG)
  | 0, ducks, s => some (ducks, s)
  | m + 1, ducks, s =>
    match tryPlace minDistSq tiles 50 ducks s with
    | none => none
    | some out => placeLoop minDistSq tiles m out.1 out.2

/-- `object_placement(n, min_dist, possible_tiles)`.  `n` is a Python int:
`range(n)` is empty for `n ≤ 0` (`Int.toNat`).  Returns the accepted
positions together with the advanced generator state. -/
def object_placement (n : ℤ) (min_dist : ℚ) (possible_tiles : List Cell) (s : RNG) :
    Option (List (ℚ × ℚ) × RNG) :=
  placeLoop (min_dist * min_dist) possible_tiles n.toNat [] s

/-- One object record of `map_dict["objects"]`. -/
structure MapObject where
  height : ℚ
  kind : String
  optional : Bool
  pos : ℚ × ℚ
  rotate : Nat
  static : Bool
deriving DecidableEq

/-- The `list(map(lambda x: {...}, ...))` step of `gen_map`: wrap each
accepted position, drawing `rotate = rand.randrange(0, 360)` per object,
left to right. -/
def mkObjects : List (ℚ × ℚ) → RNG → List MapObject × RNG
  | [], s => ([], s)
  | p :: rest, s =>
    let r := (randrange 360 s).1
    let s1 := (randrange 360 s).2
    let rest2 := mkObjects rest s1
    (⟨0.06, "duckie", false, p, r, true⟩ :: rest2.1, rest2.2)

/-- `map_dict`: tile size, tile grid and object list. -/
structure MapData where
  tile_size : ℚ
  tiles : List (List String)
  objects : List MapObject
deriving DecidableEq

/-- `gen_map()`: choose a cycle from `all_loops()`, derive the tile grid,
place 5 objects with minimum distance 10 on the cycle's cells, and wrap
the result.  `none` models an uncaught `IndexError` (empty cycle list or
empty tile list). -/
def gen_map (w h : Nat) (s : RNG) : Option MapData :=
  match choice (all_loops w h) s with
  | none => none
  | some es =>
    let tiles := graph_transform w h (edge_path_to_grid w h es.1)
    match object_placement 5 10 es.1 es.2 with
    | none => none
    | some ds => some ⟨TILE_SIZE, tiles, (mkObjects ds.1 ds.2).1⟩

/-- Cell `p` lies on the `w × h` grid. -/
def inBounds (w h : Nat) (p : Cell) : Prop :=
  0 ≤ p.1 ∧ p.1 < (w : ℤ) ∧ 0 ≤ p.2 ∧ p.2 < (h : ℤ)

instance (w h : Nat) (p : Cell) : Decidable (inBounds w h p) := by
  unfold inBounds; infer_instance

/-- A valid cycle in the sense of the specification: length at least 4, no
repeated cell, all cells on the grid, and consecutive cells (cyclically)
4-adjacent. -/
def ValidCycle (w h : Nat) (c : List Cell) : Prop :=
  4 ≤ c.length ∧ c.Nodup ∧ (∀ p ∈ c, inBounds w h p) ∧
    ∀ i < c.length, Adj (c.getD i (0, 0)) (c.getD ((i + 1) % c.length) (0, 0))

instance (w h : Nat) (c : List Cell) : Decidable (ValidCycle w h c) := by
  unfold ValidCycle; infer_instance

/-- Number of true flags of a record. -/
def trueCount (t : Rec4) : Nat :=
  (cond t.1 1 0) + (cond t.2.1 1 0) + (cond t.2.2.1 1 0) + (cond t.2.2.2 1 0)

/-- The flag of `t` in the direction of offset `d`: north is `(0, -1)`,
east `(1, 0)`, south `(0, 1)`, west `(-1, 0)`; `false` for any other
offset. -/
def flagAt (d : Cell) (t : Rec4) : Bool :=
  if d = (0, -1) then t.1
  else if d = (1, 0) then t.2.1
  else if d = (0, 1) then t.2.2.1
  else if d = (-1, 0) then t.2.2.2
  else false

/-- The flag of record `t` (sitting at cell `p`) that points at cell `q`;
`false` when `q` is not 4-adjacent to `p`. -/
def pointsAt (p q : Cell) (t : Rec4) : Bool :=
  flagAt (q.1 - p.1, q.2 - p.2) t

/-! ### Basic facts about the random source and the cycle enumeration -/

theorem choice_mem {α : Type} {l : List α} {s : RNG} {a : α} {s' : RNG}
    (h : choice l s = some (a, s')) : a ∈ l := by
  match l with
  | [] => simp [choice] at h
  | b :: t =>
    simp only [choice, nextNat, Option.some.injEq, Prod.mk.injEq] at h
    have hlt : (s.nats.headD 0) % (b :: t).length < (b :: t).length :=
      Nat.mod_lt _ (by simp)
    rw [← h.1, List.getD_eq_getElem?_getD, List.getElem?_eq_getElem hlt]
    exact List.getElem_mem hlt

theorem choice_of_ne_nil {α : Type} {l : List α} (hl : l ≠ []) (s : RNG) :
    ∃ a s', choice l s = some (a, s') := by
  match l with
  | [] => exact absurd rfl hl
  | b :: t => exact ⟨_, _, rfl⟩

theorem mem_insertAll {α : Type} {a : α} {l c : List α}
    (h : c ∈ insertAll a l) : ∀ x ∈ c, x = a ∨ x ∈ l := by
  induction l generalizing c with
  | nil =>
    simp only [insertAll, List.mem_singleton] at h
    subst h; simp
  | cons b t ih =>
    simp only [insertAll, List.mem_cons, List.mem_map] at h
    rcases h with rfl | ⟨c', hc', rfl⟩
    · intro x hx
      rcases List.mem_cons.mp hx with rfl | hx
      · exact Or.inl rfl
      · exact Or.inr hx
    · intro x hx
      rcases List.mem_cons.mp hx with rfl | hx
      · exact Or.inr (List.mem_cons_self _ _)
      · rcases ih hc' x hx with h' | h'
        · exact Or.inl h'
        · exact Or.inr (List.mem_cons_of_mem _ h')

theorem mem_perms_subset {α : Type} {s c : List α}
    (h : c ∈ perms s) : ∀ x ∈ c, x ∈ s := by
  induction s generalizing c with
  | nil =>
    simp only [perms, List.mem_singleton] at h
    subst h; simp
  | cons a t ih =>
    simp only [perms, List.mem_flatMap] at h
    obtain ⟨c', hc', hin⟩ := h
    intro x hx
    rcases mem_insertAll hin x hx with rfl | hx'
    · exact List.mem_cons_self _ _
    · exact List.mem_cons_of_mem _ (ih hc' x hx')

theorem mem_subls_subset {α : Type} {l s : List α}
    (h : s ∈ subls l) : ∀ x ∈ s, x ∈ l := by
  induction l generalizing s with
  | nil =>
    simp only [subls, List.mem_singleton] at h
    subst h; simp
  | cons a t ih =>
    simp only [subls, List.mem_append, List.mem_map] at h
    rcases h with h | ⟨s', hs', rfl⟩
    · exact fun x hx => List.mem_cons_of_mem _ (ih h x hx)
    · intro x hx
      rcases List.mem_cons.mp hx with rfl | hx
      · exact List.mem_cons_self _ _
      · exact List.mem_cons_of_mem _ (ih hs' x hx)

theorem mem_gridCells {w h : Nat} {p : Cell} (hp : p ∈ gridCells w h) :
    inBounds w h p := by
  unfold gridCells at hp
  rw [List.mem_flatMap] at hp
  obtain ⟨y, hy, hp⟩ := hp
  rw [List.mem_map] at hp
  obtain ⟨x, hx, rfl⟩ := hp
  rw [List.mem_range] at hy hx
  unfold mkCell inBounds
  refine ⟨Int.natCast_nonneg x, ?_, Int.natCast_nonneg y, ?_⟩
  · show (x : ℤ) < (w : ℤ); exact_mod_cast hx
  · show (y : ℤ) < (h : ℤ); exact_mod_cast hy

/-- Conversely, every in-bounds cell is a node of the grid graph. -/
theorem gridCells_complete {w h : Nat} {p : Cell} (hp : inBounds w h p) :
    p ∈ gridCells w h := by
  obtain ⟨h1, h2, h3, h4⟩ := hp
  unfold gridCells
  rw [List.mem_flatMap]
  refine ⟨p.2.toNat, List.mem_range.mpr (by omega), ?_⟩
  rw [List.mem_map]
  refine ⟨p.1.toNat, List.mem_range.mpr (by omega), ?_⟩
  unfold mkCell
  ext <;> simp <;> omega

/-- Everything `all_loops` enumerates is a simple, cyclically 4-adjacent,
in-bounds, non-empty cell sequence. -/
theorem all_loops_mem {w h : Nat} {c : List Cell} (hc : c ∈ all_loops w h) :
    c ≠ [] ∧ c.Nodup ∧ (∀ p ∈ c, inBounds w h p) ∧
      ∀ i < c.length, Adj (c.getD i (0, 0)) (c.getD ((i + 1) % c.length) (0, 0)) := by
  simp only [all_loops, List.mem_filter, List.mem_flatMap] at hc
  obtain ⟨⟨s, hs, hperm⟩, hcyc⟩ := hc
  simp only [isCycleB, Bool.and_eq_true, List.all_eq_true, decide_eq_true_eq,
    Bool.not_eq_true', List.isEmpty_eq_false] at hcyc
  obtain ⟨⟨hne, hnd⟩, hadj⟩ := hcyc
  refine ⟨hne, hnd, ?_, fun i hi => hadj i (List.mem_range.mpr hi)⟩
  exact fun p hp => mem_gridCells (mem_subls_subset hs p (mem_perms_subset hperm p hp))

/-! ### Reading and writing the row-major grid -/

/-- The grid has `h` rows of `w` entries each. -/
def Shaped {α : Type} (w h : Nat) (g : List (List α)) : Prop :=
  g.length = h ∧ ∀ r ∈ g, r.length = w

theorem getD_set_same {α : Type} (l : List α) (i : Nat) (a d : α) (hi : i < l.length) :
    (l.set i a).getD i d = a := by
  rw [List.getD_eq_getElem?_getD, List.getElem?_set_self hi]
  rfl

theorem getD_set_ne {α : Type} (l : List α) {i j : Nat} (a d : α) (hij : i ≠ j) :
    (l.set i a).getD j d = l.getD j d := by
  rw [List.getD_eq_getElem?_getD, List.getElem?_set_ne hij, ← List.getD_eq_getElem?_getD]

theorem getD_row {α : Type} {w h : Nat} {g : List (List α)} (hg : Shaped w h g)
    {y : Nat} (hy : y < h) : (g.getD y []).length = w := by
  obtain ⟨hl, hr⟩ := hg
  have hyl : y < g.length := by omega
  rw [List.getD_eq_getElem?_getD, List.getElem?_eq_getElem hyl]
  exact hr _ (List.getElem_mem hyl)

theorem shaped_emptyGrid (w h : Nat) : Shaped w h (emptyGrid w h) := by
  refine ⟨by simp [emptyGrid], fun r hr => ?_⟩
  rw [List.eq_of_mem_replicate hr]
  simp

theorem shaped_set2 {α : Type} {w h : Nat} {g : List (List α)} (hg : Shaped w h g)
    {p : Cell} (hp : inBounds w h p) (v : α) : Shaped w h (set2 g p.1 p.2 v) := by
  obtain ⟨hl, hr⟩ := hg
  refine ⟨by simp [set2, hl], fun r hrm => ?_⟩
  rcases List.mem_or_eq_of_mem_set hrm with hmem | rfl
  · exact hr _ hmem
  · rw [List.length_set]
    exact getD_row ⟨hl, hr⟩ (by obtain ⟨_, _, _, _⟩ := hp; omega)

theorem get2_emptyGrid (w h : Nat) (x y : ℤ) :
    get2 rec0 (emptyGrid w h) x y = rec0 := by
  unfold get2 emptyGrid
  have h1 : (List.replicate h (List.replicate w rec0)).getD y.toNat [] =
      List.replicate w rec0 ∨
      (List.replicate h (List.replicate w rec0)).getD y.toNat [] = [] := by
    rw [List.getD_eq_getElem?_getD, List.getElem?_replicate]
    split
    · exact Or.inl rfl
    · exact Or.inr rfl
  rcases h1 with h1 | h1 <;> rw [h1]
  · rw [List.getD_eq_getElem?_getD, List.getElem?_replicate]
    split
    · rfl
    · rfl
  · rfl

theorem get2_set2_same {α : Type} (d : α) {w h : Nat} {g : List (List α)}
    (hg : Shaped w h g) {p : Cell} (hp : inBounds w h p) (v : α) :
    get2 d (set2 g p.1 p.2 v) p.1 p.2 = v := by
  obtain ⟨hx0, hxw, hy0, hyh⟩ := hp
  have hyl : p.2.toNat < g.length := by obtain ⟨hl, _⟩ := hg; omega
  unfold get2 set2
  rw [getD_set_same _ _ _ _ hyl]
  exact getD_set_same _ _ _ _ (by rw [getD_row hg (by omega)]; omega)

theorem get2_set2_ne {α : Type} (d : α) {w h : Nat} {g : List (List α)}
    (hg : Shaped w h g) {p q : Cell} (hp : inBounds w h p) (hq : inBounds w h q)
    (hne : q ≠ p) (v : α) :
    get2 d (set2 g q.1 q.2 v) p.1 p.2 = get2 d g p.1 p.2 := by
  obtain ⟨hp1, hp2, hp3, hp4⟩ := hp
  obtain ⟨hq1, hq2, hq3, hq4⟩ := hq
  unfold get2 set2
  by_cases hy : q.2.toNat = p.2.toNat
  · have hxx : q.1.toNat ≠ p.1.toNat := by
      intro hcon
      exact hne (Prod.ext (by omega) (by omega))
    have hyl : q.2.toNat < g.length := by obtain ⟨hl, _⟩ := hg; omega
    rw [hy, getD_set_same _ _ _ _ (by omega), ← hy]
    exact getD_set_ne _ _ _ hxx
  · rw [getD_set_ne _ _ _ hy]

/-! ### The write-once structure of `edge_path_to_grid` -/

/-- One iteration of the `edge_path_to_grid` loop. -/
def epgStep (edges : List Cell) (g : List (List Rec4)) (i : Nat) : List (List Rec4) :=
  set2 g (edges.getD i (0, 0)).1 (edges.getD i (0, 0)).2 (cellRec edges i)

theorem edge_path_to_grid_eq_foldl (w h : Nat) (edges : List Cell) :
    edge_path_to_grid w h edges =
      (List.range edges.length).foldl (epgStep edges) (emptyGrid w h) := rfl

theorem shaped_foldl {w h : Nat} {edges : List Cell} {is : List Nat}
    {g : List (List Rec4)} (hg : Shaped w h g)
    (hb : ∀ i ∈ is, inBounds w h (edges.getD i (0, 0))) :
    Shaped w h (is.foldl (epgStep edges) g) := by
  induction is generalizing g with
  | nil => exact hg
  | cons i is' ih =>
    rw [List.foldl_cons]
    exact ih (shaped_set2 hg (hb i (List.mem_cons_self _ _)) _)
      (fun i' hi' => hb i' (List.mem_cons_of_mem _ hi'))

theorem foldl_untouched {w h : Nat} {edges : List Cell} {is : List Nat}
    {g : List (List Rec4)} (hg : Shaped w h g)
    (hb : ∀ i ∈ is, inBounds w h (edges.getD i (0, 0)))
    {p : Cell} (hp : inBounds w h p)
    (hnot : ∀ i ∈ is, edges.getD i (0, 0) ≠ p) :
    get2 rec0 (is.foldl (epgStep edges) g) p.1 p.2 = get2 rec0 g p.1 p.2 := by
  induction is generalizing g with
  | nil => rfl
  | cons i is' ih =>
    rw [List.foldl_cons]
    have hstep : Shaped w h (epgStep edges g i) :=
      shaped_set2 hg (hb i (List.mem_cons_self _ _)) _
    rw [ih hstep (fun i' hi' => hb i' (List.mem_cons_of_mem _ hi'))
      (fun i' hi' => hnot i' (List.mem_cons_of_mem _ hi'))]
    exact get2_set2_ne rec0 hg hp (hb i (List.mem_cons_self _ _))
      (hnot i (List.mem_cons_self _ _)) _

theorem foldl_written {w h : Nat} {edges : List Cell} {is : List Nat}
    {g : List (List Rec4)} (hg : Shaped w h g)
    (hb : ∀ i ∈ is, inBounds w h (edges.getD i (0, 0))) (hnd : is.Nodup)
    (hinj : ∀ i ∈ is, ∀ j ∈ is, edges.getD i (0, 0) = edges.getD j (0, 0) → i = j)
    {j : Nat} (hj : j ∈ is) :
    get2 rec0 (is.foldl (epgStep edges) g)
      (edges.getD j (0, 0)).1 (edges.getD j (0, 0)).2 = cellRec edges j := by
  induction is generalizing g with
  | nil => cases hj
  | cons i is' ih =>
    rw [List.foldl_cons]
    rcases List.mem_cons.mp hj with rfl | hj'
    · have hnotin : j ∉ is' := (List.nodup_cons.mp hnd).1
      have hstep : Shaped w h (epgStep edges g j) :=
        shaped_set2 hg (hb j (List.mem_cons_self _ _)) _
      rw [foldl_untouched hstep
        (fun i' hi' => hb i' (List.mem_cons_of_mem _ hi'))
        (hb j (List.mem_cons_self _ _))
        (fun i' hi' hcon => hnotin (by
          rw [hinj i' (List.mem_cons_of_mem _ hi') j (List.mem_cons_self _ _) hcon] at hi'
          exact hi'))]
      exact get2_set2_same rec0 hg (hb j (List.mem_cons_self _ _)) _
    · have hstep : Shaped w h (epgStep edges g i) :=
        shaped_set2 hg (hb i (List.mem_cons_self _ _)) _
      exact ih hstep
        (fun i' hi' => hb i' (List.mem_cons_of_mem _ hi'))
        (List.nodup_cons.mp hnd).2
        (fun i' hi' j' hj'2 => hinj i' (List.mem_cons_of_mem _ hi') j'
          (List.mem_cons_of_mem _ hj'2))
        hj'

/-! ### The content of an on-cycle record -/

/-- An on-cycle record expressed purely through the two neighbour offsets
`d` (toward the cycle predecessor) and `e` (toward the successor). -/
def recAt (d e : Cell) : Rec4 :=
  (decide ((((0 : ℤ), (-1 : ℤ)) : Cell) ∈ [d, e]),
   decide ((((1 : ℤ), (0 : ℤ)) : Cell) ∈ [d, e]),
   decide ((((0 : ℤ), (1 : ℤ)) : Cell) ∈ [d, e]),
   decide (((((-1) : ℤ), (0 : ℤ)) : Cell) ∈ [d, e]))

/-- For two distinct unit offsets, the record has exactly two true flags and
they are the flags in those two directions. -/
theorem recAt_spec : ∀ d ∈ offs, ∀ e ∈ offs, d ≠ e →
    trueCount (recAt d e) = 2 ∧ flagAt d (recAt d e) = true ∧
      flagAt e (recAt d e) = true := by decide

/-- The classification of a two-flag record is never the invalid marker. -/
theorem classify_recAt_ne : ∀ d ∈ offs, ∀ e ∈ offs, d ≠ e →
    classify (recAt d e) ≠ "" := by decide

theorem getD_lt {α : Type} (l : List α) (d : α) {i : Nat} (hi : i < l.length) :
    l.getD i d = l[i] := by
  rw [List.getD_eq_getElem?_getD, List.getElem?_eq_getElem hi]
  rfl

theorem getD_mem {c : List Cell} {i : Nat} (hi : i < c.length) :
    c.getD i (0, 0) ∈ c := by
  rw [getD_lt _ _ hi]
  exact List.getElem_mem hi

theorem getD_inj {c : List Cell} (hnd : c.Nodup) {i j : Nat}
    (hi : i < c.length) (hj : j < c.length)
    (heq : c.getD i (0, 0) = c.getD j (0, 0)) : i = j := by
  rw [getD_lt _ _ hi, getD_lt _ _ hj] at heq
  exact (List.Nodup.getElem_inj_iff hnd).mp heq

theorem cellRec_eq_recAt (edges : List Cell) (j : Nat) :
    cellRec edges j =
      recAt ((edges.getD ((j + edges.length - 1) % edges.length) (0, 0)).1 -
               (edges.getD j (0, 0)).1,
             (edges.getD ((j + edges.length - 1) % edges.length) (0, 0)).2 -
               (edges.getD j (0, 0)).2)
            ((edges.getD ((j + 1) % edges.length) (0, 0)).1 - (edges.getD j (0, 0)).1,
             (edges.getD ((j + 1) % edges.length) (0, 0)).2 - (edges.getD j (0, 0)).2) := by
  simp only [cellRec, recAt]
  generalize edges.getD ((j + edges.length - 1) % edges.length) (0, 0) = a
  generalize edges.getD ((j + 1) % edges.length) (0, 0) = b
  generalize edges.getD j (0, 0) = p
  refine Prod.ext ?_ (Prod.ext ?_ (Prod.ext ?_ ?_)) <;>
    · rw [decide_eq_decide]
      simp only [List.mem_cons, List.not_mem_nil, or_false, Prod.ext_iff]
      omega

theorem mod_pred {n j : Nat} (hj0 : 0 < j) (hj : j < n) :
    (j + n - 1) % n = j - 1 := by
  have h1 : j + n - 1 = (j - 1) + n := by omega
  rw [h1, Nat.add_mod_right]
  exact Nat.mod_eq_of_lt (by omega)

theorem mod_pred_succ {n j : Nat} (hj : j < n) :
    ((j + n - 1) % n + 1) % n = j := by
  rcases Nat.eq_zero_or_pos j with rfl | hj0
  · rw [Nat.mod_eq_of_lt (show 0 + n - 1 < n by omega)]
    have h2 : 0 + n - 1 + 1 = n := by omega
    rw [h2, Nat.mod_self]
  · rw [mod_pred hj0 hj]
    have h2 : j - 1 + 1 = j := by omega
    rw [h2]
    exact Nat.mod_eq_of_lt hj

theorem pred_ne_succ_idx {n j : Nat} (hn : 4 ≤ n) (hj : j < n) :
    (j + n - 1) % n ≠ (j + 1) % n := by
  rcases Nat.eq_zero_or_pos j with rfl | hj0
  · rw [Nat.mod_eq_of_lt (show 0 + n - 1 < n by omega),
      Nat.mod_eq_of_lt (show 0 + 1 < n by omega)]
    omega
  · rw [mod_pred hj0 hj]
    by_cases hje : j + 1 = n
    · rw [hje, Nat.mod_self]; omega
    · rw [Nat.mod_eq_of_lt (by omega)]; omega

theorem offs_neg {d : Cell} (hd : d ∈ offs) : ((-d.1, -d.2) : Cell) ∈ offs := by
  simp only [offs, List.mem_cons, List.not_mem_nil, or_false] at hd ⊢
  rcases hd with rfl | rfl | rfl | rfl <;> decide

/-- The record that `edge_path_to_grid` leaves at the `j`-th cycle cell: it
is `recAt d e` for the two distinct unit offsets `d`, `e` pointing at the
cyclic predecessor and successor. -/
theorem record_on_cycle {w h : Nat} {c : List Cell} (hval : ValidCycle w h c)
    {j : Nat} (hj : j < c.length) :
    ∃ d e : Cell, d ∈ offs ∧ e ∈ offs ∧ d ≠ e ∧
      d = ((c.getD ((j + c.length - 1) % c.length) (0, 0)).1 - (c.getD j (0, 0)).1,
           (c.getD ((j + c.length - 1) % c.length) (0, 0)).2 - (c.getD j (0, 0)).2) ∧
      e = ((c.getD ((j + 1) % c.length) (0, 0)).1 - (c.getD j (0, 0)).1,
           (c.getD ((j + 1) % c.length) (0, 0)).2 - (c.getD j (0, 0)).2) ∧
      get2 rec0 (edge_path_to_grid w h c) (c.getD j (0, 0)).1 (c.getD j (0, 0)).2 =
        recAt d e := by
  obtain ⟨hlen, hnd, hb, hadj⟩ := hval
  have hn0 : 0 < c.length := by omega
  have hprelt : (j + c.length - 1) % c.length < c.length := Nat.mod_lt _ hn0
  have hsuclt : (j + 1) % c.length < c.length := Nat.mod_lt _ hn0
  refine ⟨_, _, ?_, ?_, ?_, rfl, rfl, ?_⟩
  · -- offset toward the predecessor is a (negated) adjacency offset
    have hpre := hadj _ hprelt
    rw [mod_pred_succ hj] at hpre
    have hneg := offs_neg hpre
    have hrw : ((-((c.getD j (0, 0)).1 - (c.getD ((j + c.length - 1) % c.length) (0, 0)).1),
        -((c.getD j (0, 0)).2 - (c.getD ((j + c.length - 1) % c.length) (0, 0)).2)) : Cell) =
        ((c.getD ((j + c.length - 1) % c.length) (0, 0)).1 - (c.getD j (0, 0)).1,
         (c.getD ((j + c.length - 1) % c.length) (0, 0)).2 - (c.getD j (0, 0)).2) := by
      exact Prod.ext (by ring) (by ring)
    rwa [hrw] at hneg
  · exact hadj j hj
  · -- the two offsets differ because the predecessor and successor cells differ
    intro hde
    have hcells : c.getD ((j + c.length - 1) % c.length) (0, 0) =
        c.getD ((j + 1) % c.length) (0, 0) := by
      have h1 := congrArg Prod.fst hde
      have h2 := congrArg Prod.snd hde
      simp only at h1 h2
      exact Prod.ext (by omega) (by omega)
    exact pred_ne_succ_idx hlen hj (getD_inj hnd hprelt hsuclt hcells)
  · rw [edge_path_to_grid_eq_foldl, foldl_written (shaped_emptyGrid w h)
      (fun i hi => hb _ (getD_mem (List.mem_range.mp hi)))
      (List.nodup_range _)
      (fun i hi i' hi' => getD_inj hnd (List.mem_range.mp hi) (List.mem_range.mp hi'))
      (List.mem_range.mpr hj)]
    exact cellRec_eq_recAt c j

/-- Cells not on the cycle keep the all-false record. -/
theorem record_off_cycle {w h : Nat} {c : List Cell} (hb : ∀ q ∈ c, inBounds w h q)
    {p : Cell} (hp : inBounds w h p) (hpc : p ∉ c) :
    get2 rec0 (edge_path_to_grid w h c) p.1 p.2 = rec0 := by
  rw [edge_path_to_grid_eq_foldl, foldl_untouched (shaped_emptyGrid w h)
    (fun i hi => hb _ (getD_mem (List.mem_range.mp hi))) hp
    (fun i hi hcon => hpc (hcon ▸ getD_mem (List.mem_range.mp hi)))]
  exact get2_emptyGrid w h p.1 p.2

/-! ### Reading the classified tile grid -/

theorem getD_map_range {α : Type} (f : Nat → α) (d : α) {i n : Nat} (hi : i < n) :
    ((List.range n).map f).getD i d = f i := by
  rw [List.getD_eq_getElem?_getD, List.getElem?_map, List.getElem?_range hi]
  rfl

theorem getD_map_range_ge {α : Type} (f : Nat → α) (d : α) {i n : Nat} (hi : n ≤ i) :
    ((List.range n).map f).getD i d = d := by
  rw [List.getD_eq_getElem?_getD, List.getElem?_map,
    List.getElem?_eq_none (by simpa using hi)]
  rfl

/-- Reading an in-range cell of `graph_transform`'s output. -/
theorem graph_transform_at (w h : Nat) (conn : List (List Rec4)) {x y : Nat}
    (hx : x < w) (hy : y < h) :
    get2 "" (graph_transform w h conn) (x : ℤ) (y : ℤ) =
      classify (get2 rec0 conn (x : ℤ) (y : ℤ)) := by
  unfold graph_transform get2
  simp only [Int.toNat_natCast]
  rw [getD_map_range _ _ hy, getD_map_range _ _ hx]

/-- Every cell of `graph_transform`'s output (also the out-of-range default)
is the empty string or a `classify` value. -/
theorem graph_transform_cases (w h : Nat) (conn : List (List Rec4)) (x y : ℤ) :
    get2 "" (graph_transform w h conn) x y = "" ∨
      ∃ t : Rec4, get2 "" (graph_transform w h conn) x y = classify t := by
  unfold graph_transform get2
  by_cases hy : y.toNat < h
  · rw [getD_map_range _ _ hy]
    by_cases hx : x.toNat < w
    · rw [getD_map_range _ _ hx]
      exact Or.inr ⟨_, rfl⟩
    · rw [getD_map_range_ge _ _ (by omega)]
      exact Or.inl rfl
  · rw [getD_map_range_ge _ _ (by omega)]
    simp

/-- `classify` never returns the `"4way/E"` of the duplicated branch. -/
theorem classify_ne_4way : ∀ t : Rec4, classify t ≠ "4way/E" := by decide

/-- A concrete valid 4-cycle used to instantiate the universally quantified
claims. -/
def cyc4 : List Cell := [(0, 0), (1, 0), (1, 1), (0, 1)]

/-! ### Claim theorems -/

/-- **C3**: for every valid cycle (simple, cyclically 4-adjacent, length ≥ 4,
in bounds), `edge_path_to_grid` gives each on-cycle cell a record with
exactly two true flags, pointing exactly at the cyclic predecessor
(index `i − 1 mod length`) and successor (index `i + 1 mod length`), and
leaves the all-false record at every in-bounds cell off the cycle. -/
theorem c3_connectivity_exact {w h : Nat} {c : List Cell} (hval : ValidCycle w h c) :
    (∀ j, j < c.length →
      trueCount (get2 rec0 (edge_path_to_grid w h c)
          (c.getD j (0, 0)).1 (c.getD j (0, 0)).2) = 2 ∧
      pointsAt (c.getD j (0, 0)) (c.getD ((j + c.length - 1) % c.length) (0, 0))
        (get2 rec0 (edge_path_to_grid w h c)
          (c.getD j (0, 0)).1 (c.getD j (0, 0)).2) = true ∧
      pointsAt (c.getD j (0, 0)) (c.getD ((j + 1) % c.length) (0, 0))
        (get2 rec0 (edge_path_to_grid w h c)
          (c.getD j (0, 0)).1 (c.getD j (0, 0)).2) = true) ∧
    ∀ p : Cell, inBounds w h p → p ∉ c →
      get2 rec0 (edge_path_to_grid w h c) p.1 p.2 = rec0 := by
  constructor
  · intro j hj
    obtain ⟨d, e, hdo, heo, hde, hdeq, heeq, hrec⟩ := record_on_cycle hval hj
    obtain ⟨ht, hfd, hfe⟩ := recAt_spec d hdo e heo hde
    rw [hrec]
    refine ⟨ht, ?_, ?_⟩
    · unfold pointsAt
      rw [← hdeq]
      exact hfd
    · unfold pointsAt
      rw [← heeq]
      exact hfe
  · exact fun p hp hpc => record_off_cycle hval.2.2.1 hp hpc

/-- Witness for C3, at the square cycle `cyc4` on a 3 × 3 grid: cell
index 0 and the off-cycle cell `(2, 2)`. -/
theorem c3_connectivity_exact_witness :
    (trueCount (get2 rec0 (edge_path_to_grid 3 3 cyc4)
        (cyc4.getD 0 (0, 0)).1 (cyc4.getD 0 (0, 0)).2) = 2 ∧
      pointsAt (cyc4.getD 0 (0, 0)) (cyc4.getD ((0 + cyc4.length - 1) % cyc4.length) (0, 0))
        (get2 rec0 (edge_path_to_grid 3 3 cyc4)
          (cyc4.getD 0 (0, 0)).1 (cyc4.getD 0 (0, 0)).2) = true ∧
      pointsAt (cyc4.getD 0 (0, 0)) (cyc4.getD ((0 + 1) % cyc4.length) (0, 0))
        (get2 rec0 (edge_path_to_grid 3 3 cyc4)
          (cyc4.getD 0 (0, 0)).1 (cyc4.getD 0 (0, 0)).2) = true) ∧
    get2 rec0 (edge_path_to_grid 3 3 cyc4) (2 : ℤ) (2 : ℤ) = rec0 :=
  ⟨(c3_connectivity_exact (w := 3) (h := 3) (c := cyc4) (by decide)).1 0 (by decide),
   (c3_connectivity_exact (w := 3) (h := 3) (c := cyc4) (by decide)).2
     ((2 : ℤ), (2 : ℤ)) (by decide) (by decide)⟩

/-- **C4**: for every record grid produced by `edge_path_to_grid` from a
valid cycle (length ≥ 4), `graph_transform` never reaches its unknown-tile
branch: no cell of the output is the empty-string invalid marker (each is a
named tile identifier or `"grass"`). -/
theorem c4_classifier_total {w h : Nat} {c : List Cell} (hval : ValidCycle w h c)
    {x y : Nat} (hx : x < w) (hy : y < h) :
    get2 "" (graph_transform w h (edge_path_to_grid w h c)) (x : ℤ) (y : ℤ) ≠ "" := by
  rw [graph_transform_at w h _ hx hy]
  by_cases hpc : (((x : ℤ), (y : ℤ)) : Cell) ∈ c
  · obtain ⟨j, hj, hget⟩ := List.getElem_of_mem hpc
    have hgd : c.getD j (0, 0) = ((x : ℤ), (y : ℤ)) := by rw [getD_lt _ _ hj, hget]
    obtain ⟨d, e, hdo, heo, hde, _, _, hrec⟩ := record_on_cycle hval hj
    rw [hgd] at hrec
    have hrec2 : get2 rec0 (edge_path_to_grid w h c) (x : ℤ) (y : ℤ) = recAt d e := hrec
    rw [hrec2]
    exact classify_recAt_ne d hdo e heo hde
  · have hin : inBounds w h (((x : ℤ), (y : ℤ)) : Cell) := by
      refine ⟨?_, ?_, ?_, ?_⟩
      · exact Int.natCast_nonneg x
      · show (x : ℤ) < (w : ℤ); exact_mod_cast hx
      · exact Int.natCast_nonneg y
      · show (y : ℤ) < (h : ℤ); exact_mod_cast hy
    have hoff : get2 rec0 (edge_path_to_grid w h c) (x : ℤ) (y : ℤ) = rec0 :=
      record_off_cycle hval.2.2.1 hin hpc
    rw [hoff]
    decide

/-- Witness for C4, at the square cycle `cyc4` on a 3 × 3 grid, cell
`(0, 0)`. -/
theorem c4_classifier_total_witness :
    get2 "" (graph_transform 3 3 (edge_path_to_grid 3 3 cyc4))
      ((0 : Nat) : ℤ) ((0 : Nat) : ℤ) ≠ "" :=
  c4_classifier_total (c := cyc4) (by decide) (by decide) (by decide)

/-- **C5**: for every input connectivity grid, `graph_transform` never
outputs `"4way/E"` for any cell: the 4-way branch tests the same tuple
`(true, true, false, true)` as the earlier `"3way_left/E"` branch, so it is
unreachable. -/
theorem c5_four_way_unreachable (w h : Nat) (conn : List (List Rec4)) (x y : ℤ) :
    get2 "" (graph_transform w h conn) x y ≠ "4way/E" := by
  rcases graph_transform_cases w h conn x y with hc | ⟨t, hc⟩ <;> rw [hc]
  · decide
  · exact classify_ne_4way t

/-! ### Invariants of the rejection sampler -/

/-- `p` and `q` are strictly farther apart than `mds` in squared distance —
the acceptance predicate of `object_placement`. -/
def Far (mds : ℚ) (p q : ℚ × ℚ) : Prop :=
  mds < (p.1 - q.1) ^ 2 + (p.2 - q.2) ^ 2

theorem far_symm {mds : ℚ} {p q : ℚ × ℚ} (h : Far mds p q) : Far mds q p := by
  unfold Far at h ⊢
  calc mds < (p.1 - q.1) ^ 2 + (p.2 - q.2) ^ 2 := h
  _ = (q.1 - p.1) ^ 2 + (q.2 - p.2) ^ 2 := by ring

/-- A successful `tryPlace` phase either returns the accepted list
unchanged (the object is dropped) or appends exactly one point that passed
the distance check against every previously accepted point. -/
theorem tryPlace_out {mds : ℚ} {tiles : List Cell} :
    ∀ {k : Nat} {ducks : List (ℚ × ℚ)} {s : RNG} {out : List (ℚ × ℚ) × RNG},
      tryPlace mds tiles k ducks s = some out →
      out.1 = ducks ∨
        ∃ pt : ℚ × ℚ, out.1 = ducks ++ [pt] ∧
          ducks.all (farB mds pt.1 pt.2) = true := by
  intro k
  induction k with
  | zero =>
    intro ducks s out h
    simp only [tryPlace, Option.some.injEq] at h
    rw [← h]
    exact Or.inl rfl
  | succ k ih =>
    intro ducks s out h
    simp only [tryPlace] at h
    split at h
    · cases h
    · split at h
      · simp only [Option.some.injEq] at h
        rw [← h]
        next hcond => exact Or.inr ⟨_, rfl, hcond⟩
      · exact ih h

theorem tryPlace_invariant {mds : ℚ} {tiles : List Cell} {k : Nat}
    {ducks : List (ℚ × ℚ)} {s : RNG} {out : List (ℚ × ℚ) × RNG}
    (h : tryPlace mds tiles k ducks s = some out)
    (hpw : ducks.Pairwise (Far mds)) :
    out.1.Pairwise (Far mds) ∧ out.1.length ≤ ducks.length + 1 := by
  rcases tryPlace_out h with heq | ⟨pt, heq, hall⟩
  · rw [heq]
    exact ⟨hpw, by omega⟩
  · rw [heq]
    constructor
    · rw [List.pairwise_append]
      refine ⟨hpw, List.pairwise_singleton _ _, ?_⟩
      intro o ho pt' hpt'
      rw [List.mem_singleton.mp hpt']
      have hdec := List.all_eq_true.mp hall o ho
      unfold farB at hdec
      have hfar : mds < (pt.1 - o.1) ^ 2 + (pt.2 - o.2) ^ 2 := of_decide_eq_true hdec
      exact far_symm hfar
    · simp

theorem placeLoop_invariant {mds : ℚ} {tiles : List Cell} :
    ∀ {m : Nat} {ducks : List (ℚ × ℚ)} {s : RNG} {out : List (ℚ × ℚ) × RNG},
      placeLoop mds tiles m ducks s = some out →
      ducks.Pairwise (Far mds) →
      out.1.Pairwise (Far mds) ∧ out.1.length ≤ ducks.length + m := by
  intro m
  induction m with
  | zero =>
    intro ducks s out h hpw
    simp only [placeLoop, Option.some.injEq] at h
    rw [← h]
    exact ⟨hpw, Nat.le_add_right _ _⟩
  | succ m ih =>
    intro ducks s out h hpw
    simp only [placeLoop] at h
    split at h
    · cases h
    · next out1 h1 =>
      obtain ⟨hpw1, hl1⟩ := tryPlace_invariant h1 hpw
      obtain ⟨hpw2, hl2⟩ := ih h hpw1
      exact ⟨hpw2, by omega⟩

/-- A successful `tryPlace` phase never shrinks the accepted list. -/
theorem tryPlace_mono {mds : ℚ} {tiles : List Cell} {k : Nat}
    {ducks : List (ℚ × ℚ)} {s : RNG} {out : List (ℚ × ℚ) × RNG}
    (h : tryPlace mds tiles k ducks s = some out) :
    ducks.length ≤ out.1.length := by
  rcases tryPlace_out h with heq | ⟨pt, heq, _⟩
  · rw [heq]
  · rw [heq]
    simp

/-- When the eligible tile list is non-empty, `tryPlace` never fails. -/
theorem tryPlace_total {mds : ℚ} {tiles : List Cell} (htl : tiles ≠ []) :
    ∀ (k : Nat) (ducks : List (ℚ × ℚ)) (s : RNG),
      ∃ out, tryPlace mds tiles k ducks s = some out := by
  intro k
  induction k with
  | zero => exact fun ducks s => ⟨(ducks, s), rfl⟩
  | succ k ih =>
    intro ducks s
    simp only [tryPlace]
    split
    · next hch =>
      obtain ⟨a, s3, hch2⟩ := choice_of_ne_nil htl ((nextRat (nextRat s).2).2)
      rw [hch2] at hch
      cases hch
    · split
      · exact ⟨_, rfl⟩
      · exact ih ducks _

/-- With an empty accepted list the very first candidate is accepted: the
distance check over the empty list is vacuously true. -/
theorem first_accepted {q : ℚ} {tiles : List Cell} (htl : tiles ≠ [])
    (k : Nat) (s : RNG) :
    ∃ out, tryPlace q tiles (k + 1) [] s = some out ∧ out.1.length = 1 := by
  simp only [tryPlace]
  split
  · next hch =>
    obtain ⟨a, s3, hch2⟩ := choice_of_ne_nil htl ((nextRat (nextRat s).2).2)
    rw [hch2] at hch
    cases hch
  · split
    · exact ⟨_, rfl, rfl⟩
    · next hcond => simp at hcond

theorem placeLoop_total {q : ℚ} {tiles : List Cell} (htl : tiles ≠ []) :
    ∀ (m : Nat) (ducks : List (ℚ × ℚ)) (s : RNG),
      ∃ out, placeLoop q tiles m ducks s = some out ∧
        ducks.length ≤ out.1.length := by
  intro m
  induction m with
  | zero => exact fun ducks s => ⟨(ducks, s), rfl, le_refl _⟩
  | succ m ih =>
    intro ducks s
    simp only [placeLoop]
    split
    · next hch =>
      obtain ⟨out1, h1⟩ := tryPlace_total htl 50 ducks s
      rw [h1] at hch
      cases hch
    · next out1 hch =>
      obtain ⟨out2, h2, hl2⟩ := ih out1.1 out1.2
      exact ⟨out2, h2, le_trans (tryPlace_mono hch) hl2⟩

/-- Every object built by `gen_map`'s `map` step carries the fixed
attributes and a `rotate` drawn from `randrange(0, 360)`. -/
theorem mkObjects_mem {ducks : List (ℚ × ℚ)} :
    ∀ {s : RNG} {o : MapObject}, o ∈ (mkObjects ducks s).1 →
      o.rotate < 360 ∧ o.height = 0.06 ∧ o.kind = "duckie" ∧ o.static = true := by
  induction ducks with
  | nil =>
    intro s o ho
    simp [mkObjects] at ho
  | cons p rest ih =>
    intro s o ho
    simp only [mkObjects] at ho
    rcases List.mem_cons.mp ho with rfl | ho'
    · refine ⟨?_, rfl, rfl, rfl⟩
      show (randrange 360 s).1 < 360
      simp only [randrange, nextNat]
      exact Nat.mod_lt _ (by norm_num)
    · exact ih ho'

/-- **C6**: for object count `n ≥ 0`, minimum distance `D ≥ 0` and a
non-empty eligible-cell list, a successful `object_placement` run returns
at most `n` positions, and the positions are pairwise more than `D` apart
in Euclidean distance (each candidate was accepted only because its squared
distance to every previously accepted position exceeds `D²`). -/
theorem c6_placement_spec (n : ℤ) (D : ℚ) (t : List Cell) (s : RNG)
    (l : List (ℚ × ℚ)) (r : RNG) (hn : 0 ≤ n) (hD : 0 ≤ D) (ht : t ≠ [])
    (h : object_placement n D t s = some (l, r)) :
    (l.length : ℤ) ≤ n ∧
      l.Pairwise (fun p q => (D : ℝ) ≤
        Real.sqrt (((p.1 - q.1 : ℚ) : ℝ) ^ 2 + ((p.2 - q.2 : ℚ) : ℝ) ^ 2)) := by
  unfold object_placement at h
  obtain ⟨hpw, hlen⟩ := placeLoop_invariant h List.Pairwise.nil
  constructor
  · have h2 : l.length ≤ n.toNat := by simpa using hlen
    omega
  · refine hpw.imp ?_
    intro p q hf
    unfold Far at hf
    have hD' : (0 : ℝ) ≤ (D : ℝ) := by exact_mod_cast hD
    have h2 : ((D : ℝ)) ^ 2 ≤ ((p.1 - q.1 : ℚ) : ℝ) ^ 2 + ((p.2 - q.2 : ℚ) : ℝ) ^ 2 := by
      have h3 : D * D ≤ (p.1 - q.1) ^ 2 + (p.2 - q.2) ^ 2 := le_of_lt hf
      have h4 : (D : ℝ) * (D : ℝ) ≤
          ((p.1 - q.1 : ℚ) : ℝ) ^ 2 + ((p.2 - q.2 : ℚ) : ℝ) ^ 2 := by
        exact_mod_cast h3
      calc ((D : ℝ)) ^ 2 = (D : ℝ) * (D : ℝ) := by ring
      _ ≤ _ := h4
    calc (D : ℝ) = Real.sqrt ((D : ℝ) ^ 2) := (Real.sqrt_sq hD').symm
    _ ≤ Real.sqrt (((p.1 - q.1 : ℚ) : ℝ) ^ 2 + ((p.2 - q.2 : ℚ) : ℝ) ^ 2) :=
      Real.sqrt_le_sqrt h2

/-- **C7**: when all 50 attempts for one object fail the distance check,
the object is silently dropped: the phase returns the accepted list
unchanged with no error, and the outer loop simply proceeds to the
remaining objects from the advanced generator state; the failure shows up
only as a shorter returned list. -/
theorem c7_starvation_drops_silently (q : ℚ) (t : List Cell) (m : Nat)
    (d : List (ℚ × ℚ)) (s : RNG) (o : List (ℚ × ℚ) × RNG)
    (h : tryPlace q t 50 d s = some o) (hl : o.1.length = d.length) :
    o.1 = d ∧ placeLoop q t (m + 1) d s = placeLoop q t m d o.2 := by
  rcases tryPlace_out h with heq | ⟨pt, heq, _⟩
  · refine ⟨heq, ?_⟩
    simp only [placeLoop, h]
    rw [heq]
  · rw [heq] at hl
    simp at hl

/-- **C9**: for `n ≥ 1` and a non-empty eligible-cell list,
`object_placement` always succeeds and returns at least one position:
the first candidate's distance check quantifies over the empty list of
previous positions and is vacuously true. -/
theorem c9_first_always_accepted (n : ℤ) (D : ℚ) (t : List Cell) (s : RNG)
    (hn : 1 ≤ n) (ht : t ≠ []) :
    ∃ l : List (ℚ × ℚ), ∃ r : RNG,
      object_placement n D t s = some (l, r) ∧ 1 ≤ l.length := by
  unfold object_placement
  obtain ⟨m, hm⟩ : ∃ m, n.toNat = m + 1 := ⟨n.toNat - 1, by omega⟩
  rw [hm]
  simp only [placeLoop]
  obtain ⟨out1, h1, hl1⟩ := first_accepted (q := D * D) ht 49 s
  have h1' : tryPlace (D * D) t 50 [] s = some out1 := by
    rw [show (50 : Nat) = 49 + 1 by norm_num]
    exact h1
  rw [h1']
  obtain ⟨out2, h2, hl2⟩ := placeLoop_total (q := D * D) ht m out1.1 out1.2
  exact ⟨out2.1, out2.2, h2, by omega⟩

/-- **C10**: every object record assembled into the `MapData` has `rotate`
drawn from `randrange(0, 360)` — hence in `0..359`, never `360` — together
with height `0.06`, kind `"duckie"` and `static = true`. -/
theorem c10_object_attributes (w h : Nat) (s : RNG) (m : MapData)
    (hgen : gen_map w h s = some m) :
    ∀ o ∈ m.objects,
      o.rotate < 360 ∧ o.height = 0.06 ∧ o.kind = "duckie" ∧ o.static = true := by
  unfold gen_map at hgen
  split at hgen
  · cases hgen
  · split at hgen
    · cases hgen
    · simp only [Option.some.injEq] at hgen
      rw [← hgen]
      exact fun o ho => mkObjects_mem ho

/-- **C8 (amended)**: the code performs no up-front configuration check: a
zero or negative object count is silently accepted and yields the empty
placement with no error, and a grid admitting no cycle (1 × 1) makes
generation fail only at cycle-selection time, when `rand.choice` is applied
to the empty cycle list. -/
theorem c8_no_validation :
    (∀ (d : ℚ) (t : List Cell) (s : RNG), object_placement 0 d t s = some ([], s)) ∧
    (∀ (d : ℚ) (t : List Cell) (s : RNG), object_placement (-3) d t s = some ([], s)) ∧
    ∀ s : RNG, gen_map 1 1 s = none := by
  refine ⟨fun d t s => rfl, fun d t s => rfl, fun s => ?_⟩
  unfold gen_map
  have hempty : all_loops 1 1 = [] := by decide
  rw [hempty]
  rfl

/-- **C8 (counterexample to the claim as stated)**: with object count `0`
the code does not fail with a configuration error — placement succeeds and
returns the empty list. -/
theorem c8_zero_count_succeeds :
    object_placement 0 10 [((0 : ℤ), (0 : ℤ))] ⟨[], []⟩ = some ([], ⟨[], []⟩) := rfl

/-- **C2 (evidence)**: on the 2 × 1 grid, every cycle `rand.choice` can
possibly select from `all_loops` has length 2 — not ≥ 4 as claimed; the
enumeration of simple directed cycles of the bidirected grid graph contains
the two-cell loops. -/
theorem c2_selected_cycle_length_two (s : RNG) (e : List Cell × RNG)
    (h : choice (all_loops 2 1) s = some e) : e.1.length = 2 := by
  have hmem : e.1 ∈ all_loops 2 1 :=
    choice_mem (show choice (all_loops 2 1) s = some (e.1, e.2) from h)
  have hall : all_loops 2 1 =
      [[((0 : ℤ), (0 : ℤ)), ((1 : ℤ), (0 : ℤ))],
       [((1 : ℤ), (0 : ℤ)), ((0 : ℤ), (0 : ℤ))]] := by decide
  rw [hall] at hmem
  rcases List.mem_cons.mp hmem with heq | hmem2
  · rw [heq]
    rfl
  · rw [List.mem_singleton.mp hmem2]
    rfl

/-! ### Concrete runs

The arithmetic of `ℚ` in Batteries is `@[irreducible]`; it is made
reducible locally so that `decide` can evaluate the concrete runs below. -/

/-- The `MapData` produced on the 2 × 1 grid from all-zero draw streams:
the two-cell loop `[(0,0), (1,0)]` is selected, both of its one-flag
records fall into the unknown-tile branch (`""`), one duckie is placed at
the origin and the remaining four are dropped. -/
def mdZ : MapData :=
  ⟨0.585, [["", ""]], [⟨0.06, "duckie", false, (0, 0), 0, true⟩]⟩

section

attribute [local semireducible] Rat.add Rat.mul Rat.inv Rat.sub Rat.ofScientific

/-- **C1 (evidence)**: `gen_map`'s output is a function of the state of the
module-level generator `rand = Random()`, which is seeded from OS entropy;
`args.seed` is parsed but never applied to it.  Two runs that differ only
in that hidden state produce different `MapData`, so a fixed `--seed` does
not make two independent runs bit-identical. -/
theorem c1_runs_with_same_seed_differ :
    gen_map 2 1 ⟨[], []⟩ ≠ gen_map 2 1 ⟨[1], []⟩ := by decide

/-- Witness for C2: the selection actually drawn from the all-zero stream
on the 2 × 1 grid has length 2. -/
theorem c2_selected_cycle_length_two_witness :
    (([((0 : ℤ), (0 : ℤ)), ((1 : ℤ), (0 : ℤ))] : List Cell).length) = 2 :=
  c2_selected_cycle_length_two ⟨[], []⟩
    ([((0 : ℤ), (0 : ℤ)), ((1 : ℤ), (0 : ℤ))], ⟨[], []⟩) (by decide)

/-- Witness for C6: a one-object run on a single eligible tile. -/
theorem c6_placement_spec_witness :
    ((([((0 : ℚ), (0 : ℚ))] : List (ℚ × ℚ)).length : ℤ) ≤ 1) ∧
      ([((0 : ℚ), (0 : ℚ))] : List (ℚ × ℚ)).Pairwise (fun p q => ((10 : ℚ) : ℝ) ≤
        Real.sqrt (((p.1 - q.1 : ℚ) : ℝ) ^ 2 + ((p.2 - q.2 : ℚ) : ℝ) ^ 2)) :=
  c6_placement_spec 1 10 [((0 : ℤ), (0 : ℤ))] ⟨[], []⟩ [((0 : ℚ), (0 : ℚ))] ⟨[], []⟩
    (by norm_num) (by norm_num) (by decide) (by decide)

/-- Witness for C7: with one accepted duck at the origin, a single
eligible tile and minimum squared distance 100, all 50 attempts fail, the
phase returns the list unchanged, and the outer loop proceeds. -/
theorem c7_starvation_witness :
    ([((0 : ℚ), (0 : ℚ))] : List (ℚ × ℚ)) = [((0 : ℚ), (0 : ℚ))] ∧
      placeLoop 100 [((0 : ℤ), (0 : ℤ))] (0 + 1) [((0 : ℚ), (0 : ℚ))] ⟨[], []⟩ =
        placeLoop 100 [((0 : ℤ), (0 : ℤ))] 0 [((0 : ℚ), (0 : ℚ))] ⟨[], []⟩ :=
  c7_starvation_drops_silently 100 [((0 : ℤ), (0 : ℤ))] 0 [((0 : ℚ), (0 : ℚ))] ⟨[], []⟩
    ([((0 : ℚ), (0 : ℚ))], ⟨[], []⟩) (by decide) (by decide)

/-- Witness for C9: one object requested on one eligible tile. -/
theorem c9_first_always_accepted_witness :
    (1 : ℤ) ≤ 1 ∧ ([((0 : ℤ), (0 : ℤ))] : List Cell) ≠ [] ∧
      ∃ l : List (ℚ × ℚ), ∃ r : RNG,
        object_placement 1 10 [((0 : ℤ), (0 : ℤ))] ⟨[], []⟩ = some (l, r) ∧
          1 ≤ l.length :=
  ⟨le_refl 1, by decide,
    c9_first_always_accepted 1 10 [((0 : ℤ), (0 : ℤ))] ⟨[], []⟩ (le_refl 1) (by decide)⟩

/-- Witness for C10: the full generator run on the 2 × 1 grid and the
single object it produces. -/
theorem c10_object_attributes_witness :
    gen_map 2 1 ⟨[], []⟩ = some mdZ ∧
      ((⟨0.06, "duckie", false, ((0 : ℚ), (0 : ℚ)), 0, true⟩ : MapObject).rotate < 360 ∧
        (⟨0.06, "duckie", false, ((0 : ℚ), (0 : ℚ)), 0, true⟩ : MapObject).height = 0.06 ∧
        (⟨0.06, "duckie", false, ((0 : ℚ), (0 : ℚ)), 0, true⟩ : MapObject).kind = "duckie" ∧
        (⟨0.06, "duckie", false, ((0 : ℚ), (0 : ℚ)), 0, true⟩ : MapObject).static = true) := by
  have hgen : gen_map 2 1 ⟨[], []⟩ = some mdZ := by decide
  exact ⟨hgen, c10_object_attributes 2 1 ⟨[], []⟩ mdZ hgen _ (by decide)⟩

end

end MapGen
